import Mathlib

/-!
Verification of the WhatsApp-export parsing core
(`whatsapp_export_to_md_html.py`) against its specification.

The Python source is shallowly embedded: each regular expression of the
source is translated into a hand-written deterministic matcher on
`List Char` (the patterns involved are deterministic once the usual
greedy/lazy preferences of the `re` engine are taken into account, as
argued at each definition), `datetime` construction is modelled as an
`Option`-valued constructor validating calendar ranges, and the raising
of an exception inside `parse_messages` is modelled by `Option`/`none`.
Lines are the elements produced by `str.splitlines`, hence contain no
newline character.  `\d` is modelled by the ASCII digits and the scanned
texts are treated at that granularity (chat exports contain only ASCII
digits in timestamps).
-/

/-- The whitespace characters of Python's `str.split()` / `str.strip()` and
of the Unicode-aware `\s` of the `re` module. -/
def wsChars : List Char :=
  [' ', '\t', '\n', '\x0b', '\x0c', '\r',
   '\x1c', '\x1d', '\x1e', '\x1f', '\u0085', '\u00a0', '\u1680',
   '\u2000', '\u2001', '\u2002', '\u2003', '\u2004', '\u2005', '\u2006',
   '\u2007', '\u2008', '\u2009', '\u200a', '\u2028', '\u2029', '\u202f',
   '\u205f', '\u3000']

/-- Test for `\s` / Python whitespace. -/
def isSpaceRe (c : Char) : Bool := c ∈ wsChars

/-- Test for `\d`, modelled by the ASCII digits. -/
def isDigitC (c : Char) : Bool := c.isDigit

/-- The characters removed from every line by the parse loop of
`parse_messages` before header matching: the byte-order mark and the five
bidirectional marks (source lines 156-159). -/
def bomBidiChars : List Char :=
  ['\ufeff', '\u200e', '\u200f', '\u202a', '\u202b', '\u202c']

/-- The five bidirectional marks removed by `_norm_space` (which, unlike the
parse loop, does not remove the byte-order mark). -/
def bidiChars : List Char := ['\u200e', '\u200f', '\u202a', '\u202b', '\u202c']

/-- The in-loop cleanup of `parse_messages`: `line.replace` of the BOM and the
five bidi marks by the empty string, i.e. a character filter.  (The preceding
`line.rstrip("\n")` is the identity on the output of `splitlines`.) -/
def stripMarks (s : String) : String := ⟨s.data.filter (fun c => !(c ∈ bomBidiChars))⟩

/-- Model of Python's `s.split(sep)` for a one-character separator, on char lists:
always returns at least one (possibly empty) part. -/
def chSplit (sep : Char) : List Char → List (List Char)
  | [] => [[]]
  | c :: cs =>
    match chSplit sep cs with
    | [] => [[]]
    | p :: ps => if c = sep then [] :: p :: ps else (c :: p) :: ps

/-- Model of Python's `int(s)` restricted to the inputs produced by the regex groups:
a nonempty string of ASCII digits; `none` models a `ValueError`. -/
def digitsToNat? (cs : List Char) : Option Nat :=
  if cs ≠ [] ∧ cs.all isDigitC then
    some (cs.foldl (fun a c => 10 * a + (c.toNat - 48)) 0)
  else none

/-- Civil timestamp, the model of `datetime.datetime` (no timezone). -/
structure Datetime where
  year : Nat
  month : Nat
  day : Nat
  hour : Nat
  minute : Nat
  second : Nat
deriving DecidableEq, Repr

/-- Leap-year test of the proleptic Gregorian calendar used by `datetime`. -/
def isLeap (y : Nat) : Bool := y % 4 = 0 ∧ (y % 100 ≠ 0 ∨ y % 400 = 0)

/-- Length of a month, as validated by the `datetime` constructor. -/
def daysInMonth (y m : Nat) : Nat :=
  if m = 2 then (if isLeap y then 29 else 28)
  else if m = 4 ∨ m = 6 ∨ m = 9 ∨ m = 11 then 30
  else 31

/-- The `datetime.datetime(...)` constructor: `none` models the `ValueError`
raised on an out-of-range field. -/
def mkDatetime (y mo d h mi s : Nat) : Option Datetime :=
  if 1 ≤ y ∧ y ≤ 9999 ∧ 1 ≤ mo ∧ mo ≤ 12 ∧ 1 ≤ d ∧ d ≤ daysInMonth y mo
      ∧ h ≤ 23 ∧ mi ≤ 59 ∧ s ≤ 59 then
    some ⟨y, mo, d, h, mi, s⟩
  else none

/-- Model of `parse_dt_de` (source lines 134-145): split the dotted date and the
`H:MM` time, widen a two-digit year by 2000, default seconds to `0`,
and build the timestamp.  `none` models any raised `ValueError`. -/
def parse_dt_de (d t_hm : String) (t_s : Option String) : Option Datetime :=
  match chSplit '.' d.data with
  | [dd, mm, yy] => do
    let day ← digitsToNat? dd
    let month ← digitsToNat? mm
    let y0 ← digitsToNat? yy
    let year := if y0 < 100 then y0 + 2000 else y0
    match chSplit ':' t_hm.data with
    | [hh, mi] => do
      let h ← digitsToNat? hh
      let m ← digitsToNat? mi
      let s ← (match t_s with
        | none => some 0
        | some ss => digitsToNat? ss.data)
      mkDatetime year month day h m s
    | _ => none
  | _ => none

/-- Model of `datetime.datetime.fromisoformat(f"{d} {t}")` on the shapes produced by
`_pat_iso` (`YYYY-MM-DD` and `HH:MM:SS`): same validation as the
constructor. -/
def parse_dt_iso (d t : String) : Option Datetime :=
  match chSplit '-' d.data, chSplit ':' t.data with
  | [y, mo, dd], [h, mi, s] => do
    let yv ← digitsToNat? y
    let mov ← digitsToNat? mo
    let dv ← digitsToNat? dd
    let hv ← digitsToNat? h
    let miv ← digitsToNat? mi
    let sv ← digitsToNat? s
    mkDatetime yv mov dv hv miv sv
  | _, _ => none

/-- Matcher for `\d{n}` when the following pattern element cannot match a digit:
take exactly `n` characters, all digits. -/
def reqDigits (n : Nat) (cs : List Char) : Option (List Char × List Char) :=
  let ds := cs.take n
  if ds.length = n ∧ ds.all isDigitC then some (ds, cs.drop n) else none

/-- Matcher for `\d{lo,hi}` when the following pattern element cannot match a digit
(true at every use site below: a digit run is always followed by `.`/`,`/
`:`/`-`/`]`/space in the patterns): greedy maximal munch is exact. -/
def rangeDigits (lo hi : Nat) (cs : List Char) : Option (List Char × List Char) :=
  let ds := cs.takeWhile isDigitC
  if lo ≤ ds.length ∧ ds.length ≤ hi then some (ds, cs.drop ds.length) else none

/-- A single literal character. -/
def reqChar (c : Char) : List Char → Option (List Char)
  | x :: rest => if x = c then some rest else none
  | [] => none

/-- Matcher for `\s+` when the following pattern element cannot match whitespace
(true where used: followed by a digit, `-` or `–`): maximal munch, at
least one character. -/
def reqWs1 (cs : List Char) : Option (List Char) :=
  let ws := cs.takeWhile isSpaceRe
  if 1 ≤ ws.length then some (cs.drop ws.length) else none

/-- The common tail `\s+([^:]+?):\s*(.*)$` of the three author-bearing
patterns.  With the greedy `\s+` and the lazy author group, the match
succeeds iff the remainder starts with whitespace and its first `:` is at
index `≥ 2`; the author then runs from the end of the whitespace run
(backing off by one character when that run touches the colon) up to the
first colon, and the text is the remainder after the colon with its leading
whitespace removed. -/
def authorTail (cs : List Char) : Option (List Char × List Char) :=
  match cs.findIdx? (· = ':') with
  | none => none
  | some k =>
    let j := (cs.takeWhile isSpaceRe).length
    if 1 ≤ j ∧ 2 ≤ k then
      let i := min j (k - 1)
      some ((cs.drop i).take (k - i), (cs.drop (k + 1)).dropWhile isSpaceRe)
    else none

/-- Matcher for `(?::(\d{2}))?` followed by an element that can match neither `:` nor a
digit (space or `]` at all use sites), so committing to the group whenever
`:` plus two digits are present is exact. -/
def optSeconds (cs : List Char) : Option String × List Char :=
  match cs with
  | ':' :: rest =>
    (match reqDigits 2 rest with
     | some (ss, r) => (some ⟨ss⟩, r)
     | none => (none, cs))
  | _ => (none, cs)

/-- Matcher for `_pat_iso` (source line 108):
`^(\d{4}-\d{2}-\d{2})[ T](\d{2}:\d{2}:\d{2})\s+([^:]+?):\s*(.*)$`,
returning the captured (date, time, author, text). -/
def matchIso (cs : List Char) : Option (String × String × String × String) := do
  let (y, r1) ← reqDigits 4 cs
  let r2 ← reqChar '-' r1
  let (mo, r3) ← reqDigits 2 r2
  let r4 ← reqChar '-' r3
  let (d, r5) ← reqDigits 2 r4
  let r6 ← (match r5 with
    | x :: rest => if x = ' ' ∨ x = 'T' then some rest else none
    | [] => none)
  let (hh, r7) ← reqDigits 2 r6
  let r8 ← reqChar ':' r7
  let (mi, r9) ← reqDigits 2 r8
  let r10 ← reqChar ':' r9
  let (ss, r11) ← reqDigits 2 r10
  let (a, t) ← authorTail r11
  some (⟨y ++ '-' :: mo ++ '-' :: d⟩, ⟨hh ++ ':' :: mi ++ ':' :: ss⟩, ⟨a⟩, ⟨t⟩)

/-- The dotted date `\d{1,2}\.\d{1,2}\.\d{2,4}` shared by the German-style
patterns; returns the captured date string and the remainder. -/
def dottedDate (cs : List Char) : Option (String × List Char) := do
  let (dd, r1) ← rangeDigits 1 2 cs
  let r2 ← reqChar '.' r1
  let (mm, r3) ← rangeDigits 1 2 r2
  let r4 ← reqChar '.' r3
  let (yy, r5) ← rangeDigits 2 4 r4
  some (⟨dd ++ '.' :: mm ++ '.' :: yy⟩, r5)

/-- The `,\s+(\d{1,2}:\d{2})(?::(\d{2}))?` time part shared by the
German-style patterns; returns (time, seconds?, remainder). -/
def deTime (cs : List Char) : Option (String × Option String × List Char) := do
  let r6 ← reqChar ',' cs
  let r7 ← reqWs1 r6
  let (hh, r8) ← rangeDigits 1 2 r7
  let r9 ← reqChar ':' r8
  let (mi, r10) ← reqDigits 2 r9
  let (so, r11) := optSeconds r10
  some (⟨hh ++ ':' :: mi⟩, so, r11)

/-- Matcher for `_pat_de` (source lines 112-114):
`^(\d{1,2}\.\d{1,2}\.\d{2,4}),\s+(\d{1,2}:\d{2})(?::(\d{2}))?\s+-\s+([^:]+?):\s*(.*)$`.
Note the separator is the ASCII hyphen only. -/
def matchDe (cs : List Char) :
    Option (String × String × Option String × String × String) := do
  let (d, r5) ← dottedDate cs
  let (hm, so, r11) ← deTime r5
  let r12 ← reqWs1 r11
  let r13 ← reqChar '-' r12
  let (a, t) ← authorTail r13
  some (d, hm, so, ⟨a⟩, ⟨t⟩)

/-- Matcher for `_pat_bracket` (source lines 117-119):
`^\[(\d{1,2}\.\d{1,2}\.\d{2,4}),\s+(\d{1,2}:\d{2})(?::(\d{2}))?\]\s+([^:]+?):\s*(.*)$`. -/
def matchBracket (cs : List Char) :
    Option (String × String × Option String × String × String) := do
  let r0 ← reqChar '[' cs
  let (d, r5) ← dottedDate r0
  let (hm, so, r11) ← deTime r5
  let r12 ← reqChar ']' r11
  let (a, t) ← authorTail r12
  some (d, hm, so, ⟨a⟩, ⟨t⟩)

/-- Matcher for `\s+(?P<text>.*)$`: at least one whitespace character, then the rest with
the maximal whitespace run removed. -/
def sysText (cs : List Char) : Option (List Char) :=
  match cs with
  | c :: _ => if isSpaceRe c then some (cs.dropWhile isSpaceRe) else none
  | [] => none

/-- Matcher for `_pat_de_sys` (source lines 126-128):
`^(?P<date>\d{1,2}\.\d{1,2}\.\d{2,4}),\s+(?P<time>\d{1,2}:\d{2})(?::(?P<sec>\d{2}))?\s+[-–]\s+(?P<text>.*)$`.
Defined in the source but never consulted by `parse_messages`. -/
def matchDeSys (cs : List Char) :
    Option (String × String × Option String × String) := do
  let (d, r5) ← dottedDate cs
  let (hm, so, r11) ← deTime r5
  let r12 ← reqWs1 r11
  let r13 ← (match r12 with
    | c :: rest => if c = '-' ∨ c = '\u2013' then some rest else none
    | [] => none)
  let t ← sysText r13
  some (d, hm, so, ⟨t⟩)

/-- Matcher for `_pat_iso_sys` (source lines 122-124):
`^(?P<date>\d{4}-\d{2}-\d{2})[ T](?P<time>\d{2}:\d{2}:\d{2})(?:\s+[-–]\s+|\s+)(?P<text>.*)$`.
The alternation prefers the dashed form; with a maximal whitespace run the
choice is deterministic.  Defined in the source but never consulted by
`parse_messages`. -/
def matchIsoSys (cs : List Char) : Option (String × String × String) := do
  let (y, r1) ← reqDigits 4 cs
  let r2 ← reqChar '-' r1
  let (mo, r3) ← reqDigits 2 r2
  let r4 ← reqChar '-' r3
  let (d, r5) ← reqDigits 2 r4
  let r6 ← (match r5 with
    | x :: rest => if x = ' ' ∨ x = 'T' then some rest else none
    | [] => none)
  let (hh, r7) ← reqDigits 2 r6
  let r8 ← reqChar ':' r7
  let (mi, r9) ← reqDigits 2 r8
  let r10 ← reqChar ':' r9
  let (ss, r11) ← reqDigits 2 r10
  let j := (r11.takeWhile isSpaceRe).length
  let t ← (if 1 ≤ j then
      (match r11.drop j with
       | c :: rest =>
         if c = '-' ∨ c = '\u2013' then
           (match sysText rest with
            | some t => some t
            | none => some (r11.drop j))
         else some (r11.drop j)
       | [] => some [])
    else none)
  some (⟨y ++ '-' :: mo ++ '-' :: d⟩, ⟨hh ++ ':' :: mi ++ ':' :: ss⟩, ⟨t⟩)

/-- Matcher for `_pat_bracket_sys` (source lines 130-132):
`^\[(?P<date>\d{1,2}\.\d{1,2}\.\d{2,4}),\s+(?P<time>\d{1,2}:\d{2})(?::(?P<sec>\d{2}))?\]\s+(?P<text>.*)$`.
Defined in the source but never consulted by `parse_messages`. -/
def matchBracketSys (cs : List Char) :
    Option (String × String × Option String × String) := do
  let r0 ← reqChar '[' cs
  let (d, r5) ← dottedDate r0
  let (hm, so, r11) ← deTime r5
  let r12 ← reqChar ']' r11
  let t ← sysText r12
  some (d, hm, so, ⟨t⟩)

/-- One parsed chat message (the `Message` dataclass). -/
structure Message where
  ts : Datetime
  author : String
  text : String
deriving DecidableEq, Repr

/-- Stages of `_norm_space` (source lines 43-48): replace non-breaking spaces by
ordinary spaces, strip, remove the five bidirectional marks, then
`" ".join(s.split())`, collapsing internal whitespace runs. -/
def pyWordsAux : List Char → List Char → List (List Char)
  | [], acc => if acc.isEmpty then [] else [acc.reverse]
  | c :: cs, acc =>
    if isSpaceRe c then
      (if acc.isEmpty then pyWordsAux cs [] else acc.reverse :: pyWordsAux cs [])
    else pyWordsAux cs (c :: acc)

/-- Model of Python's argumentless `str.split()`: the maximal whitespace-free runs. -/
def pyWords (cs : List Char) : List (List Char) := pyWordsAux cs []

/-- Model of `" ".join(ws)` on char-list words. -/
def joinSp : List (List Char) → List Char
  | [] => []
  | [w] => w
  | w :: v :: ws => w ++ ' ' :: joinSp (v :: ws)

/-- Model of Python's `str.strip()`: drop whitespace from both ends. -/
def pyStrip (cs : List Char) : List Char :=
  ((cs.dropWhile isSpaceRe).reverse.dropWhile isSpaceRe).reverse

/-- Model of `_norm_space` itself, stage for stage in source order. -/
def norm_space (s : String) : String :=
  let a := s.data.map (fun c => if c = '\u00a0' then ' ' else c)
  let b := pyStrip a
  let c := b.filter (fun c => !(c ∈ bidiChars))
  ⟨joinSp (pyWords c)⟩

/-- Parse state: the closed messages in order, and the currently open one
(the `last` variable of `parse_messages`; `last`, when set, aliases the
final element of `msgs`, so the open message is kept apart and appended on
close). -/
abbrev ParseState := List Message × Option Message

/-- One iteration of the `parse_messages` loop on an already mark-stripped
line: blank lines extend the open message by a line break, the three
author patterns are tried in source order (a matching line whose timestamp
is invalid raises, modelled by `none`), and anything else is absorbed into
the open message or dropped. -/
def stepCore (st : ParseState) (l : String) : Option ParseState :=
  if l = "" then
    some (st.1, st.2.map (fun m => { m with text := m.text ++ "\n" }))
  else
    match matchIso l.data with
    | some (d, t, a, tx) =>
      match parse_dt_iso d t with
      | some ts => some (st.1 ++ st.2.toList, some ⟨ts, norm_space a, tx⟩)
      | none => none
    | none =>
      match matchDe l.data with
      | some (d, hm, so, a, tx) =>
        match parse_dt_de d hm so with
        | some ts => some (st.1 ++ st.2.toList, some ⟨ts, norm_space a, tx⟩)
        | none => none
      | none =>
        match matchBracket l.data with
        | some (d, hm, so, a, tx) =>
          match parse_dt_de d hm so with
          | some ts => some (st.1 ++ st.2.toList, some ⟨ts, norm_space a, tx⟩)
          | none => none
        | none =>
          some (st.1, st.2.map (fun m => { m with text := m.text ++ "\n" ++ l }))

/-- One loop iteration on a raw line: strip the BOM/bidi marks first. -/
def step (st : ParseState) (line : String) : Option ParseState :=
  stepCore st (stripMarks line)

/-- Model of `parse_messages` (source lines 147-203) on the list of lines of the
export file; `none` models an uncaught exception escaping the loop. -/
def parse_messages (lines : List String) : Option (List Message) := do
  let st ← lines.foldlM step (([], none) : ParseState)
  some (st.1 ++ st.2.toList)

/-- Header recognition as `parse_messages` performs it: the first pattern
(in source order) whose shape matches decides; its timestamp must then be
valid, the author is normalized. -/
def headerOf (l : String) : Option (Datetime × String × String) :=
  match matchIso l.data with
  | some (d, t, a, tx) => (parse_dt_iso d t).map (fun ts => (ts, norm_space a, tx))
  | none =>
    match matchDe l.data with
    | some (d, hm, so, a, tx) => (parse_dt_de d hm so).map (fun ts => (ts, norm_space a, tx))
    | none =>
      match matchBracket l.data with
      | some (d, hm, so, a, tx) => (parse_dt_de d hm so).map (fun ts => (ts, norm_space a, tx))
      | none => none

/-- Whether a line's shape matches one of the three author-bearing header
patterns (regardless of calendar validity). -/
def shapeMatch (l : String) : Bool :=
  (matchIso l.data).isSome || (matchDe l.data).isSome || (matchBracket l.data).isSome

/-- Text contributed by a run of continuation lines: each line, blank or
not, is preceded by one line break (a blank line hence contributes a bare
line break). -/
def contText : List String → String
  | [] => ""
  | l :: rest => "\n" ++ stripMarks l ++ contText rest

/-- The URL body character class `[^\s<>\]]`. -/
def urlBodyChar (c : Char) : Bool := !(isSpaceRe c) ∧ c ∉ ['<', '>', ']']

/-- Length of a case-insensitive `https?://` prefix at the head of the
list, if any (the optional `s` is greedy, and backtracking cannot change
the outcome since `s` and `:` differ). -/
def urlPrefixLen (cs : List Char) : Option Nat :=
  match cs with
  | h :: t1 :: t2 :: p :: rest =>
    if h.toLower = 'h' ∧ t1.toLower = 't' ∧ t2.toLower = 't' ∧ p.toLower = 'p' then
      match rest with
      | s :: c1 :: s1 :: s2 :: _ =>
        if s.toLower = 's' ∧ c1 = ':' ∧ s1 = '/' ∧ s2 = '/' then some 8
        else if s = ':' ∧ c1 = '/' ∧ s1 = '/' then some 7
        else none
      | [c1, s1, s2] => if c1 = ':' ∧ s1 = '/' ∧ s2 = '/' then some 7 else none
      | _ => none
    else none
  | _ => none

/-- A match of `_url_re` = `(https?://[^\s<>\]]+)` anchored at the head of
the list: its total length (prefix plus maximal nonempty body). -/
def tryUrlAt (cs : List Char) : Option Nat :=
  match urlPrefixLen cs with
  | none => none
  | some p =>
    let body := (cs.drop p).takeWhile urlBodyChar
    if body.length = 0 then none else some (p + body.length)

/-- Model of `re.finditer` for `_url_re`: scan left to right, emit each
non-overlapping leftmost match, resume after its end. -/
def scanUrls : List Char → List (List Char)
  | [] => []
  | c :: cs =>
    match h : tryUrlAt (c :: cs) with
    | some n => (c :: cs).take n :: scanUrls ((c :: cs).drop n)
    | none => scanUrls cs
termination_by cs => cs.length
decreasing_by
  · have h1 : 1 ≤ n := by
      unfold tryUrlAt at h
      split at h
      · exact absurd h (by simp)
      · next p hp =>
        have hp1 : 1 ≤ p := by
          unfold urlPrefixLen at hp
          repeat first
          | (split at hp; try simp_all)
          | simp_all
          | omega
        dsimp only at h
        split at h
        · exact absurd h (by simp)
        · simp only [Option.some.injEq] at h
          omega
    simp only [List.length_drop, List.length_cons]
    omega
  · simp

/-- The trailing punctuation stripped from each URL match:
`u.rstrip(").,;:!?]\"'")`. -/
def trailPunct : List Char := [')', '.', ',', ';', ':', '!', '?', ']', '"', '\u0027']

/-- Model of `u.rstrip(chars)`. -/
def rstripPunct (cs : List Char) : List Char :=
  (cs.reverse.dropWhile (· ∈ trailPunct)).reverse

/-- Model of `extract_urls` (source lines 52-64): find all `_url_re` matches, strip
trailing punctuation from each, then keep the first occurrence of each
distinct URL (`seen` set plus `out` list; in this embedding the two are
one and the same list). -/
def extract_urls (text : String) : List String :=
  let urls := (scanUrls text.data).map (fun w => (⟨rstripPunct w⟩ : String))
  (urls.foldl
    (fun (st : List String × List String) u =>
      if u ∈ st.1 then st else (st.1 ++ [u], st.2 ++ [u]))
    ([], [])).2

/-- First-occurrence deduplication, stated independently of the `seen`-set
loop: keep the head, delete its later duplicates, recurse. -/
def dedupFirst : List String → List String
  | [] => []
  | u :: rest => u :: dedupFirst (rest.filter (· ≠ u))
termination_by l => l.length
decreasing_by
  simp only [List.length_cons]
  exact Nat.lt_succ_of_le (List.length_filter_le _ _)

/-- Cached preview record (the `Preview` dataclass). -/
structure Preview where
  url : String
  title : String
  description : String
  image_data_url : Option String
deriving DecidableEq, Repr

/-- The process-wide `_preview_cache` dict, as an association list keyed by
URL (only cache misses insert, so keys stay distinct). -/
abbrev PreviewCache := List (String × Preview)

/-- Model of the `_preview_cache[url]` lookup. -/
def cacheFind (c : PreviewCache) (u : String) : Option Preview :=
  (c.find? (fun e => e.1 = u)).map (fun e => e.2)

/-- Model of `_preview_cache[url] = prev` for a fresh key. -/
def cacheInsert (c : PreviewCache) (u : String) (p : Preview) : PreviewCache :=
  c ++ [(u, p)]

/-- The effectful and standard-library collaborators of the preview
resolver, abstracted as parameters of the embedding: `httpGet` models
`_http_get` (`none` = any network/decode exception), `pageLen` the byte
length of a response, `b64` its base64 encoding, `meta` the dictionary
produced by `_parse_meta` from a fetched page (`.get` access), `isYT` the
`urllib.parse`-based `is_youtube_url`, `urlPath` `urlparse(u).path`, and
`urljoin` `_resolve_url`.  The memoization claims are proved for every
such environment. -/
structure Web (Page : Type) where
  httpGet : String → Option (Page × String)
  pageLen : Page → Nat
  b64 : Page → String
  meta : Page → String → Option String
  isYT : String → Option String
  urlPath : String → String
  urljoin : String → String → String

/-- Model of `guess_mime_from_name` (source lines 283-293). -/
def guess_mime_from_name (name : String) : String :=
  let n : String := ⟨name.data.map Char.toLower⟩
  if n.endsWith ".jpg" ∨ n.endsWith ".jpeg" then "image/jpeg"
  else if n.endsWith ".png" then "image/png"
  else if n.endsWith ".gif" then "image/gif"
  else if n.endsWith ".webp" then "image/webp"
  else "application/octet-stream"

/-- Model of `ct.split(";")[0].strip().lower() if ct else ""`. -/
def mimeOfContentType (ct : String) : String :=
  if ct = "" then ""
  else ⟨(pyStrip ((chSplit ';' ct.data).headD [])).map Char.toLower⟩

/-- Model of `_download_image_as_data_url` (source lines 364-378), instrumented with
the list of outbound fetch attempts it makes (always exactly one). -/
def download_image_as_data_url {Page : Type} (w : Web Page) (img_url : String) :
    Option String × List String :=
  match w.httpGet img_url with
  | none => (none, [img_url])
  | some (data, ct) =>
    let res :=
      if w.pageLen data > 2500000 then none
      else
        let mime := mimeOfContentType ct
        if mime.startsWith "image/" then
          some ("data:" ++ mime ++ ";base64," ++ w.b64 data)
        else
          let mime2 := guess_mime_from_name (w.urlPath img_url)
          if mime2.startsWith "image/" then
            some ("data:" ++ mime2 ++ ";base64," ++ w.b64 data)
          else none
    (res, [img_url])

/-- Model of Python's `a or b` on an optional string, where both `None` and the
empty string fall through. -/
def pyOr (a : Option String) (b : String) : String :=
  match a with
  | some s => if s = "" then b else s
  | none => b

/-- Model of `build_preview` (source lines 380-415) with the cache passed
explicitly; the result carries the produced preview (or `none`), the cache
after the call, and the list of outbound fetch attempts made. -/
def build_preview {Page : Type} (w : Web Page) (cache : PreviewCache) (url : String) :
    Option Preview × PreviewCache × List String :=
  match cacheFind cache url with
  | some p => (some p, cache, [])
  | none =>
    match w.isYT url with
    | some vid =>
      let thumb := "https://img.youtube.com/vi/" ++ vid ++ "/hqdefault.jpg"
      let dl := download_image_as_data_url w thumb
      let prev : Preview := ⟨url, "YouTube", "", dl.1⟩
      (some prev, cacheInsert cache url prev, dl.2)
    | none =>
      match w.httpGet url with
      | none => (none, cache, [url])
      | some pc =>
        let m := w.meta pc.1
        let title := pyOr (m "og:title") (pyOr (m "title") url)
        let desc := pyOr (m "og:description") (pyOr (m "description") "")
        let img := pyOr (m "og:image") (pyOr (m "twitter:image") "")
        let dl :=
          if img ≠ "" then download_image_as_data_url w (w.urljoin url img)
          else (none, [])
        let prev : Preview := ⟨url, ⟨pyStrip title.data⟩, ⟨pyStrip desc.data⟩, dl.1⟩
        (some prev, cacheInsert cache url prev, url :: dl.2)

/-- A concrete environment in which every fetch fails and no URL is
recognized as a video link. -/
def failWeb : Web Unit :=
  ⟨fun _ => none, fun _ => 0, fun _ => "", fun _ _ => none,
   fun _ => none, fun _ => "", fun a _ => a⟩

/-- A concrete environment in which every page fetch succeeds with an
empty metadata dictionary. -/
def okWeb : Web Unit :=
  ⟨fun _ => some ((), "text/html"), fun _ => 0, fun _ => "", fun _ _ => none,
   fun _ => none, fun _ => "", fun a _ => a⟩

theorem strAppendAssoc (a b c : String) : a ++ b ++ c = a ++ (b ++ c) :=
  String.ext (by simp [String.data_append])

theorem strAppendEmpty (a : String) : a ++ "" = a :=
  String.ext (by simp [String.data_append])

theorem stripMarks_idem (s : String) : stripMarks (stripMarks s) = stripMarks s :=
  String.ext (by simp [stripMarks])

theorem headerOf_empty_eq : headerOf "" = none := by decide

theorem stepCore_header {l : String} {ts : Datetime} {a t0 : String}
    (h : headerOf l = some (ts, a, t0)) (st : ParseState) :
    stepCore st l = some (st.1 ++ st.2.toList, some ⟨ts, a, t0⟩) := by
  have hne : ¬ l = "" := by
    intro he
    rw [he, headerOf_empty_eq] at h
    exact Option.noConfusion h
  unfold headerOf at h
  unfold stepCore
  rw [if_neg hne]
  cases hiso : matchIso l.data with
  | some g =>
    obtain ⟨d, t, a0, tx⟩ := g
    rw [hiso] at h
    dsimp only at h ⊢
    cases hdt : parse_dt_iso d t with
    | some ts0 =>
      rw [hdt] at h
      dsimp only at h ⊢
      simp only [Option.map_some', Option.some.injEq, Prod.mk.injEq] at h
      obtain ⟨h1, h2, h3⟩ := h
      subst h1; subst h2; subst h3
      rfl
    | none => rw [hdt] at h; simp at h
  | none =>
    rw [hiso] at h
    dsimp only at h ⊢
    cases hde : matchDe l.data with
    | some g =>
      obtain ⟨d, hm, so, a0, tx⟩ := g
      rw [hde] at h
      dsimp only at h ⊢
      cases hdt : parse_dt_de d hm so with
      | some ts0 =>
        rw [hdt] at h
        dsimp only at h ⊢
        simp only [Option.map_some', Option.some.injEq, Prod.mk.injEq] at h
        obtain ⟨h1, h2, h3⟩ := h
        subst h1; subst h2; subst h3
        rfl
      | none => rw [hdt] at h; simp at h
    | none =>
      rw [hde] at h
      dsimp only at h ⊢
      cases hbr : matchBracket l.data with
      | some g =>
        obtain ⟨d, hm, so, a0, tx⟩ := g
        rw [hbr] at h
        dsimp only at h ⊢
        cases hdt : parse_dt_de d hm so with
        | some ts0 =>
          rw [hdt] at h
          dsimp only at h ⊢
          simp only [Option.map_some', Option.some.injEq, Prod.mk.injEq] at h
          obtain ⟨h1, h2, h3⟩ := h
          subst h1; subst h2; subst h3
          rfl
        | none => rw [hdt] at h; simp at h
      | none => rw [hbr] at h; exact Option.noConfusion h

theorem shapeMatch_eq_false {l : String} (h : shapeMatch l = false) :
    matchIso l.data = none ∧ matchDe l.data = none ∧ matchBracket l.data = none := by
  unfold shapeMatch at h
  cases h1 : matchIso l.data <;> cases h2 : matchDe l.data <;>
    cases h3 : matchBracket l.data <;> simp_all

theorem stepCore_cont {l : String} (h : shapeMatch l = false) (done : List Message)
    (m : Message) :
    stepCore (done, some m) l = some (done, some ⟨m.ts, m.author, m.text ++ "\n" ++ l⟩) := by
  obtain ⟨h1, h2, h3⟩ := shapeMatch_eq_false h
  unfold stepCore
  by_cases he : l = ""
  · rw [if_pos he]
    dsimp only [Option.map_some']
    rw [he, strAppendEmpty]
  · rw [if_neg he, h1, h2, h3]
    rfl

theorem stepCore_noOpen {l : String} (h : shapeMatch l = false) (done : List Message) :
    stepCore (done, none) l = some (done, none) := by
  obtain ⟨h1, h2, h3⟩ := shapeMatch_eq_false h
  unfold stepCore
  by_cases he : l = ""
  · rw [if_pos he]; rfl
  · rw [if_neg he, h1, h2, h3]; rfl

theorem foldlM_step_cont (rest : List String)
    (hr : ∀ l ∈ rest, shapeMatch (stripMarks l) = false) (done : List Message)
    (m : Message) :
    List.foldlM step ((done, some m) : ParseState) rest =
      some (done, some ⟨m.ts, m.author, m.text ++ contText rest⟩) := by
  induction rest generalizing m with
  | nil =>
    simp only [List.foldlM_nil, contText, strAppendEmpty]
    rfl
  | cons l rest ih =>
    have hl : shapeMatch (stripMarks l) = false := hr l (by simp)
    have hrest : ∀ x ∈ rest, shapeMatch (stripMarks x) = false :=
      fun x hx => hr x (by simp [hx])
    have hs : step ((done, some m) : ParseState) l =
        some (done, some ⟨m.ts, m.author, m.text ++ "\n" ++ stripMarks l⟩) :=
      stepCore_cont hl done m
    have h0 : List.foldlM step ((done, some m) : ParseState) (l :: rest) =
        List.foldlM step
          ((done, some ⟨m.ts, m.author, m.text ++ "\n" ++ stripMarks l⟩) : ParseState)
          rest := by
      rw [List.foldlM_cons, hs]
      exact rfl
    have htxt : (m.text ++ "\n" ++ stripMarks l) ++ contText rest =
        m.text ++ contText (l :: rest) := by
      apply String.ext
      simp only [contText, String.data_append, List.append_assoc]
    rw [h0, ih hrest ⟨m.ts, m.author, m.text ++ "\n" ++ stripMarks l⟩]
    dsimp only
    rw [htxt]

theorem foldlM_step_noOpen (pre : List String)
    (hp : ∀ l ∈ pre, shapeMatch (stripMarks l) = false) (done : List Message) :
    List.foldlM step ((done, none) : ParseState) pre = some (done, none) := by
  induction pre with
  | nil => rfl
  | cons l rest ih =>
    have hl : shapeMatch (stripMarks l) = false := hp l (by simp)
    have hs : step ((done, none) : ParseState) l = some (done, none) :=
      stepCore_noOpen hl done
    have h0 : List.foldlM step ((done, none) : ParseState) (l :: rest) =
        List.foldlM step ((done, none) : ParseState) rest := by
      rw [List.foldlM_cons, hs]
      exact rfl
    rw [h0]
    exact ih (fun x hx => hp x (by simp [hx]))

/-- C1: a header line followed by non-header lines yields one Message whose
text is the header text followed by each continuation line in order, each
preceded by a line break, blank lines contributing a bare line break. -/
theorem continuation_absorption (h : String) (ts : Datetime) (a t0 : String)
    (rest : List String) (hh : headerOf (stripMarks h) = some (ts, a, t0))
    (hr : ∀ l ∈ rest, shapeMatch (stripMarks l) = false) :
    parse_messages (h :: rest) = some [⟨ts, a, t0 ++ contText rest⟩] := by
  unfold parse_messages
  have hstep : step (([], none) : ParseState) h =
      some (([], some ⟨ts, a, t0⟩) : ParseState) :=
    stepCore_header hh ([], none)
  have h0 : List.foldlM step (([], none) : ParseState) (h :: rest) =
      List.foldlM step (([], some ⟨ts, a, t0⟩) : ParseState) rest := by
    rw [List.foldlM_cons, hstep]
    exact rfl
  rw [h0, foldlM_step_cont rest hr [] ⟨ts, a, t0⟩]
  rfl

theorem continuation_absorption_witness :
    parse_messages ["13.04.19, 18:59 - Bob: Hi", "cont line", "", "more"] =
      some [⟨⟨2019, 4, 13, 18, 59, 0⟩, "Bob", "Hi\ncont line\n\nmore"⟩] := by
  have h := continuation_absorption "13.04.19, 18:59 - Bob: Hi"
    ⟨2019, 4, 13, 18, 59, 0⟩ "Bob" "Hi" ["cont line", "", "more"]
    (by decide) (by decide)
  exact h.trans (by decide)

/-- C9: non-header lines before the first recognized header are dropped and
contribute to no Message. -/
theorem orphan_lines_dropped (pre rest : List String)
    (hp : ∀ l ∈ pre, shapeMatch (stripMarks l) = false) :
    parse_messages (pre ++ rest) = parse_messages rest := by
  unfold parse_messages
  have h0 : List.foldlM step (([], none) : ParseState) (pre ++ rest) =
      List.foldlM step (([], none) : ParseState) rest := by
    rw [List.foldlM_append, foldlM_step_noOpen pre hp []]
    exact rfl
  rw [h0]

theorem orphan_lines_dropped_witness :
    parse_messages ["orphan one", "orphan two", "13.04.19, 18:59 - Bob: Hi"] =
      some [⟨⟨2019, 4, 13, 18, 59, 0⟩, "Bob", "Hi"⟩] := by
  have h := orphan_lines_dropped ["orphan one", "orphan two"]
    ["13.04.19, 18:59 - Bob: Hi"] (by decide)
  exact h.trans (by decide)

theorem takeWhile_len_ge {p : Char → Bool} :
    ∀ (n : Nat) (cs : List Char), (cs.take n).length = n → (cs.take n).all p →
      n ≤ (cs.takeWhile p).length := by
  intro n
  induction n with
  | zero => intro cs _ _; exact Nat.zero_le _
  | succ k ih =>
    intro cs hlen hall
    cases cs with
    | nil => simp at hlen
    | cons c t =>
      simp only [List.take_succ_cons, List.length_cons, Nat.succ.injEq] at hlen
      simp only [List.take_succ_cons, List.all_cons, Bool.and_eq_true] at hall
      rw [List.takeWhile_cons, if_pos hall.1]
      simp only [List.length_cons, Nat.succ_le_succ_iff]
      exact ih t hlen hall.2

theorem matchDe_imp_matchIso_none {cs : List Char}
    {g : String × String × Option String × String × String}
    (h : matchDe cs = some g) : matchIso cs = none := by
  have hrange : ∃ r, rangeDigits 1 2 cs = some r := by
    unfold matchDe at h
    cases hdd : dottedDate cs with
    | none => rw [hdd] at h; exact absurd h (by simp)
    | some v =>
      unfold dottedDate at hdd
      cases hr : rangeDigits 1 2 cs with
      | none => rw [hr] at hdd; exact absurd hdd (by simp)
      | some r => exact ⟨r, rfl⟩
  obtain ⟨r, hr⟩ := hrange
  have hle : (cs.takeWhile isDigitC).length ≤ 2 := by
    unfold rangeDigits at hr
    dsimp only at hr
    split at hr
    · omega
    · exact absurd hr (by simp)
  unfold matchIso
  cases hq : reqDigits 4 cs with
  | none => rfl
  | some v =>
    exfalso
    unfold reqDigits at hq
    dsimp only at hq
    split at hq
    · next hc =>
      have := takeWhile_len_ge 4 cs hc.1 hc.2
      omega
    · exact absurd hq (by simp)

theorem chSplit_ne_nil (sep : Char) (cs : List Char) : chSplit sep cs ≠ [] := by
  cases cs with
  | nil => simp [chSplit]
  | cons c t =>
    unfold chSplit
    cases chSplit sep t with
    | nil => simp
    | cons p ps =>
      by_cases hc : c = sep <;> simp [hc]

theorem chSplit_no_sep {sep : Char} {a : List Char} (h : ∀ c ∈ a, c ≠ sep) :
    chSplit sep a = [a] := by
  induction a with
  | nil => rfl
  | cons c t ih =>
    have ht : ∀ x ∈ t, x ≠ sep := fun x hx => h x (by simp [hx])
    unfold chSplit
    rw [ih ht]
    simp [h c (by simp)]

theorem chSplit_append_sep {sep : Char} {a : List Char} (rest : List Char)
    (h : ∀ c ∈ a, c ≠ sep) :
    chSplit sep (a ++ sep :: rest) = a :: chSplit sep rest := by
  induction a with
  | nil =>
    simp only [List.nil_append]
    show (match chSplit sep rest with
          | [] => [[]]
          | p :: ps => if sep = sep then [] :: p :: ps else (sep :: p) :: ps) =
      [] :: chSplit sep rest
    cases hs : chSplit sep rest with
    | nil => exact absurd hs (chSplit_ne_nil sep rest)
    | cons p ps => simp
  | cons c t ih =>
    have ht : ∀ x ∈ t, x ≠ sep := fun x hx => h x (by simp [hx])
    simp only [List.cons_append]
    show (match chSplit sep (t ++ sep :: rest) with
          | [] => [[]]
          | p :: ps => if c = sep then [] :: p :: ps else (c :: p) :: ps) =
      (c :: t) :: chSplit sep rest
    rw [ih ht]
    simp [h c (by simp)]

theorem parse_dt_de_spec {d hm : String} {so : Option String} {ts : Datetime}
    (h : parse_dt_de d hm so = some ts) :
    ∃ dd mm yy hh mi,
      chSplit '.' d.data = [dd, mm, yy] ∧ chSplit ':' hm.data = [hh, mi] ∧
      digitsToNat? dd = some ts.day ∧ digitsToNat? mm = some ts.month ∧
      (∃ y0, digitsToNat? yy = some y0 ∧
        ts.year = if y0 < 100 then y0 + 2000 else y0) ∧
      digitsToNat? hh = some ts.hour ∧ digitsToNat? mi = some ts.minute ∧
      ((so = none ∧ ts.second = 0) ∨
        (∃ ss, so = some ss ∧ digitsToNat? ss.data = some ts.second)) := by
  unfold parse_dt_de at h
  cases hd : chSplit '.' d.data with
  | nil => rw [hd] at h; exact absurd h (by simp)
  | cons dd r1 =>
  cases r1 with
  | nil => rw [hd] at h; exact absurd h (by simp)
  | cons mm r2 =>
  cases r2 with
  | nil => rw [hd] at h; exact absurd h (by simp)
  | cons yy r3 =>
  cases r3 with
  | cons x xs => rw [hd] at h; dsimp only at h; exact absurd h (by simp)
  | nil =>
  rw [hd] at h
  dsimp only at h
  simp only [Option.bind_eq_bind, Option.bind_eq_some] at h
  obtain ⟨day, hday, h⟩ := h
  obtain ⟨mon, hmon, h⟩ := h
  obtain ⟨y0, hy0, h⟩ := h
  cases ht : chSplit ':' hm.data with
  | nil => rw [ht] at h; exact absurd h (by simp)
  | cons hh s1 =>
  cases s1 with
  | nil => rw [ht] at h; exact absurd h (by simp)
  | cons mi s2 =>
  cases s2 with
  | cons x xs => rw [ht] at h; dsimp only at h; exact absurd h (by simp)
  | nil =>
  rw [ht] at h
  dsimp only at h
  simp only [Option.bind_eq_bind, Option.bind_eq_some] at h
  obtain ⟨hv, hhv, h⟩ := h
  obtain ⟨mv, hmv, h⟩ := h
  obtain ⟨sv, hsv, h⟩ := h
  have hsec : (so = none ∧ sv = 0) ∨
      (∃ ss, so = some ss ∧ digitsToNat? ss.data = some sv) := by
    cases so with
    | none =>
      left
      simp only [Option.some.injEq] at hsv
      exact ⟨rfl, hsv.symm⟩
    | some ss => exact Or.inr ⟨ss, rfl, hsv⟩
  by_cases hy : y0 < 100
  · rw [if_pos hy] at h
    unfold mkDatetime at h
    split at h
    · simp only [Option.some.injEq] at h
      subst h
      exact ⟨dd, mm, yy, hh, mi, rfl, rfl, hday, hmon,
        ⟨y0, hy0, by simp [hy]⟩, hhv, hmv, hsec⟩
    · exact absurd h (by simp)
  · rw [if_neg hy] at h
    unfold mkDatetime at h
    split at h
    · simp only [Option.some.injEq] at h
      subst h
      exact ⟨dd, mm, yy, hh, mi, rfl, rfl, hday, hmon,
        ⟨y0, hy0, by simp [hy]⟩, hhv, hmv, hsec⟩
    · exact absurd h (by simp)

/-- C2: dialect-2 lines parse to a Message with that date/time (seconds
defaulting to 0, two-digit year widened by 2000), normalized author and the
exact text; in particular the spec example. -/
theorem dialect_two_header_parses :
    (parse_messages ["05.01.24, 9:00 - Alice: Hey"] =
      some [⟨⟨2024, 1, 5, 9, 0, 0⟩, "Alice", "Hey"⟩]) ∧
    (∀ (s d hm : String) (so : Option String) (a t : String) (ts : Datetime),
      matchDe (stripMarks s).data = some (d, hm, so, a, t) →
      parse_dt_de d hm so = some ts →
      parse_messages [s] = some [⟨ts, norm_space a, t⟩]) ∧
    (∀ (d hm : String) (ts : Datetime),
      parse_dt_de d hm none = some ts → ts.second = 0) ∧
    (∀ (d hm : String) (so : Option String) (ts : Datetime)
      (dd mm yy : List Char) (y0 : Nat),
      parse_dt_de d hm so = some ts → chSplit '.' d.data = [dd, mm, yy] →
      digitsToNat? yy = some y0 → y0 < 100 → ts.year = 2000 + y0) := by
  refine ⟨by decide, ?_, ?_, ?_⟩
  · intro s d hm so a t ts hmatch hdt
    have hh : headerOf (stripMarks s) = some (ts, norm_space a, t) := by
      unfold headerOf
      rw [matchDe_imp_matchIso_none hmatch]
      dsimp only
      rw [hmatch]
      dsimp only
      rw [hdt]
      rfl
    unfold parse_messages
    have hstep : step (([], none) : ParseState) s =
        some (([], some ⟨ts, norm_space a, t⟩) : ParseState) :=
      stepCore_header hh ([], none)
    have h0 : List.foldlM step (([], none) : ParseState) [s] =
        some (([], some ⟨ts, norm_space a, t⟩) : ParseState) := by
      rw [List.foldlM_cons, hstep]
      exact rfl
    rw [h0]
    rfl
  · intro d hm ts h
    obtain ⟨dd, mm, yy, hh, mi, _, _, _, _, _, _, _, hsec⟩ := parse_dt_de_spec h
    rcases hsec with ⟨_, h0⟩ | ⟨ss, hss, _⟩
    · exact h0
    · exact Option.noConfusion hss
  · intro d hm so ts dd mm yy y0 h hsplit hyy hlt
    obtain ⟨dd', mm', yy', hh, mi, hd, _, _, _, ⟨y1, hy1, hyear⟩, _, _, _⟩ :=
      parse_dt_de_spec h
    rw [hsplit] at hd
    simp only [List.cons.injEq, and_true] at hd
    obtain ⟨-, -, hyy'⟩ := hd
    rw [← hyy'] at hy1
    rw [hyy] at hy1
    simp only [Option.some.injEq] at hy1
    subst hy1
    rw [if_pos hlt] at hyear
    omega

theorem dialect_two_header_parses_witness :
    parse_messages ["13.04.19, 18:59:06 - Bob: Nice"] =
      some [⟨⟨2019, 4, 13, 18, 59, 6⟩, "Bob", "Nice"⟩] := by
  have h := dialect_two_header_parses.2.1 "13.04.19, 18:59:06 - Bob: Nice"
    "13.04.19" "18:59" (some "06") "Bob" "Nice" ⟨2019, 4, 13, 18, 59, 6⟩
    (by decide) (by decide)
  simpa using h

/-- C3 (code divergence): a line in the no-author system-notice grammar
(`_pat_de_sys` matches it) is not turned into a Message by
`parse_messages`, which never consults the three `_sys` patterns; alone in
a stream it is simply dropped. -/
theorem system_notice_line_dropped :
    shapeMatch (stripMarks "05.01.24, 9:00 - Bild weggelassen") = false ∧
    matchDeSys "05.01.24, 9:00 - Bild weggelassen".data =
      some ("05.01.24", "9:00", none, "Bild weggelassen") ∧
    parse_messages ["05.01.24, 9:00 - Bild weggelassen"] = some [] := by decide

/-- C4 (code divergence): a line whose shape matches dialect 2 but whose
month field is 13 makes `parse_messages` raise (modelled by `none`) instead
of treating the line as non-matching. -/
theorem invalid_month_header_aborts_parse :
    (matchDe (stripMarks "13.13.19, 18:59 - Alice: Hi").data).isSome = true ∧
    parse_messages ["13.13.19, 18:59 - Alice: Hi"] = none := by decide

/-- C5 (counterexample): a header line preceded by a non-breaking space is
not recognized — only BOM/bidi marks are removed before matching — so it is
misattributed as a continuation of the previous message, although the full
normalizer would have made it a header. -/
theorem nbsp_header_line_absorbed_as_continuation :
    parse_messages ["2024-01-05 09:00:00 Bob: A",
        "\u00a02024-01-05 09:01:00 Alice: B"] =
      some [⟨⟨2024, 1, 5, 9, 0, 0⟩, "Bob",
        "A\n\u00a02024-01-05 09:01:00 Alice: B"⟩] ∧
    headerOf (norm_space "\u00a02024-01-05 09:01:00 Alice: B") =
      some (⟨2024, 1, 5, 9, 1, 0⟩, "Alice", "B") := by decide

theorem step_stripMarks (st : ParseState) (x : String) :
    step st (stripMarks x) = step st x := by
  unfold step
  rw [stripMarks_idem]

/-- C5 (amended): what does run before header matching is exactly the
BOM/bidi-mark removal — `parse_messages` is invariant under pre-applying
`stripMarks` to every line. -/
theorem marks_removed_before_matching (lines : List String) :
    parse_messages (lines.map stripMarks) = parse_messages lines := by
  unfold parse_messages
  have hfold : ∀ st : ParseState,
      List.foldlM step st (lines.map stripMarks) = List.foldlM step st lines := by
    induction lines with
    | nil => intro st; rfl
    | cons l rest ih =>
      intro st
      rw [List.map_cons, List.foldlM_cons, List.foldlM_cons, step_stripMarks]
      cases hs : step st l with
      | none => rfl
      | some st' =>
        show (some st' >>= fun s' => List.foldlM step s' (rest.map stripMarks)) =
          (some st' >>= fun s' => List.foldlM step s' rest)
        exact ih st'
  rw [hfold]

/-- C6 (counterexample): the en-dash variant of the dialect-2 separator is
not matched by `_pat_de`; the line produces no Message at all. -/
theorem en_dash_line_not_a_header :
    matchDe "05.01.24, 9:00 \u2013 Alice: Hey".data = none ∧
    parse_messages ["05.01.24, 9:00 \u2013 Alice: Hey"] = some [] := by decide

/-- C6 (amended): dialect 2 accepts only the ASCII hyphen as separator; the
en-dash form is accepted only by the unused no-author system pattern, so a
hyphen line yields its Message while the en-dash line yields none. -/
theorem dialect_two_hyphen_only :
    parse_messages ["05.01.24, 9:00 - Alice: Hey"] =
      some [⟨⟨2024, 1, 5, 9, 0, 0⟩, "Alice", "Hey"⟩] ∧
    parse_messages ["05.01.24, 9:00 \u2013 Alice: Hey"] = some [] ∧
    matchDeSys "05.01.24, 9:00 \u2013 Alice: Hey".data =
      some ("05.01.24", "9:00", none, "Alice: Hey") := by decide

theorem dedupFirst_nil : dedupFirst [] = [] := by
  rw [dedupFirst]

theorem dedupFirst_cons (u : String) (rest : List String) :
    dedupFirst (u :: rest) = u :: dedupFirst (rest.filter (· ≠ u)) := by
  rw [dedupFirst]

theorem mem_dedupFirst {a : String} : ∀ l : List String, a ∈ dedupFirst l ↔ a ∈ l := by
  intro l
  induction l using dedupFirst.induct with
  | case1 => rw [dedupFirst_nil]
  | case2 u rest ih =>
    rw [dedupFirst_cons]
    by_cases ha : a = u
    · simp [ha]
    · simp only [List.mem_cons, ih, List.mem_filter]
      simp [ha]

theorem nodup_dedupFirst : ∀ l : List String, (dedupFirst l).Nodup := by
  intro l
  induction l using dedupFirst.induct with
  | case1 => rw [dedupFirst_nil]; exact List.nodup_nil
  | case2 u rest ih =>
    rw [dedupFirst_cons]
    refine List.Nodup.cons ?_ ih
    intro hmem
    rw [mem_dedupFirst] at hmem
    simp only [List.mem_filter, decide_not] at hmem
    simp at hmem

theorem foldl_seen_dedup (l : List String) : ∀ acc : List String,
    (l.foldl
      (fun (st : List String × List String) u =>
        if u ∈ st.1 then st else (st.1 ++ [u], st.2 ++ [u]))
      (acc, acc)).2 =
      acc ++ dedupFirst (l.filter (fun u => decide (u ∉ acc))) := by
  induction l with
  | nil => intro acc; simp [dedupFirst]
  | cons u l ih =>
    intro acc
    rw [List.foldl_cons]
    by_cases hu : u ∈ acc
    · rw [if_pos hu]
      rw [ih acc]
      have : (u :: l).filter (fun x => decide (x ∉ acc)) =
          l.filter (fun x => decide (x ∉ acc)) := by
        simp [List.filter_cons, hu]
      rw [this]
    · rw [if_neg hu]
      rw [ih (acc ++ [u])]
      have h1 : (u :: l).filter (fun x => decide (x ∉ acc)) =
          u :: l.filter (fun x => decide (x ∉ acc)) := by
        simp [List.filter_cons, hu]
      have h2 : l.filter (fun x => decide (x ∉ acc ++ [u])) =
          (l.filter (fun x => decide (x ∉ acc))).filter (· ≠ u) := by
        rw [List.filter_filter]
        apply List.filter_congr
        intro x _
        by_cases hx : x = u
        · simp [hx]
        · by_cases hxa : x ∈ acc <;> simp [hx, hxa]
      rw [h1, dedupFirst_cons, ← h2]
      simp [List.append_assoc]

theorem extract_urls_eq_dedupFirst (t : String) :
    extract_urls t =
      dedupFirst ((scanUrls t.data).map (fun w => (⟨rstripPunct w⟩ : String))) := by
  unfold extract_urls
  have h := foldl_seen_dedup
    ((scanUrls t.data).map (fun w => (⟨rstripPunct w⟩ : String))) []
  simp only [List.nil_append] at h
  rw [h]
  congr 1
  apply List.filter_eq_self.2
  intro a _
  simp

/-- C8: `extract_urls` returns the scanned `http(s)://` tokens with trailing
sentence punctuation stripped, duplicates removed keeping the first
occurrence of each distinct URL in first-seen order. -/
theorem extract_urls_first_seen_order (t : String) :
    extract_urls t =
      dedupFirst ((scanUrls t.data).map (fun w => (⟨rstripPunct w⟩ : String))) ∧
    (extract_urls t).Nodup ∧
    ∀ u, u ∈ extract_urls t ↔
      u ∈ (scanUrls t.data).map (fun w => (⟨rstripPunct w⟩ : String)) := by
  refine ⟨extract_urls_eq_dedupFirst t, ?_, ?_⟩
  · rw [extract_urls_eq_dedupFirst]
    exact nodup_dedupFirst _
  · intro u
    rw [extract_urls_eq_dedupFirst]
    exact mem_dedupFirst _

theorem pyWordsAux_spec : ∀ (cs acc : List Char),
    (∀ c ∈ acc, isSpaceRe c = false) →
    ∀ w ∈ pyWordsAux cs acc,
      w ≠ [] ∧ (∀ c ∈ w, isSpaceRe c = false) ∧ (∀ c ∈ w, c ∈ cs ∨ c ∈ acc) := by
  intro cs
  induction cs with
  | nil =>
    intro acc hacc w hw
    unfold pyWordsAux at hw
    by_cases he : acc.isEmpty
    · rw [if_pos he] at hw
      exact absurd hw (List.not_mem_nil w)
    · rw [if_neg he] at hw
      simp only [List.mem_singleton] at hw
      subst hw
      refine ⟨?_, ?_, ?_⟩
      · simpa [List.isEmpty_iff] using he
      · intro c hc
        exact hacc c (List.mem_reverse.1 hc)
      · intro c hc
        exact Or.inr (List.mem_reverse.1 hc)
  | cons x t ih =>
    intro acc hacc w hw
    unfold pyWordsAux at hw
    by_cases hx : isSpaceRe x
    · rw [if_pos hx] at hw
      by_cases he : acc.isEmpty
      · rw [if_pos he] at hw
        obtain ⟨h1, h2, h3⟩ := ih [] (by simp) w hw
        exact ⟨h1, h2, fun c hc => by
          rcases h3 c hc with h | h
          · exact Or.inl (List.mem_cons_of_mem x h)
          · exact absurd h (List.not_mem_nil c)⟩
      · rw [if_neg he] at hw
        rcases List.mem_cons.1 hw with hw | hw
        · subst hw
          refine ⟨?_, ?_, ?_⟩
          · simpa [List.isEmpty_iff] using he
          · intro c hc
            exact hacc c (List.mem_reverse.1 hc)
          · intro c hc
            exact Or.inr (List.mem_reverse.1 hc)
        · obtain ⟨h1, h2, h3⟩ := ih [] (by simp) w hw
          exact ⟨h1, h2, fun c hc => by
            rcases h3 c hc with h | h
            · exact Or.inl (List.mem_cons_of_mem x h)
            · exact absurd h (List.not_mem_nil c)⟩
    · rw [if_neg hx] at hw
      have hacc' : ∀ c ∈ x :: acc, isSpaceRe c = false := by
        intro c hc
        rcases List.mem_cons.1 hc with hc | hc
        · subst hc; exact Bool.not_eq_true _ ▸ (by simpa using hx)
        · exact hacc c hc
      obtain ⟨h1, h2, h3⟩ := ih (x :: acc) hacc' w hw
      refine ⟨h1, h2, fun c hc => ?_⟩
      rcases h3 c hc with h | h
      · exact Or.inl (List.mem_cons_of_mem x h)
      · rcases List.mem_cons.1 h with h | h
        · exact Or.inl (h ▸ List.mem_cons_self x t)
        · exact Or.inr h

theorem pyWords_spec (cs : List Char) :
    ∀ w ∈ pyWords cs,
      w ≠ [] ∧ (∀ c ∈ w, isSpaceRe c = false) ∧ (∀ c ∈ w, c ∈ cs) := by
  intro w hw
  obtain ⟨h1, h2, h3⟩ := pyWordsAux_spec cs [] (by simp) w hw
  exact ⟨h1, h2, fun c hc => (h3 c hc).resolve_right (List.not_mem_nil c)⟩

theorem pyWordsAux_word_run : ∀ (w rest acc : List Char),
    (∀ c ∈ w, isSpaceRe c = false) →
    pyWordsAux (w ++ rest) acc = pyWordsAux rest (w.reverse ++ acc) := by
  intro w
  induction w with
  | nil => intro rest acc _; simp
  | cons c w ih =>
    intro rest acc hw
    have hc : isSpaceRe c = false := hw c (by simp)
    have hstep : pyWordsAux ((c :: w) ++ rest) acc =
        (if isSpaceRe c = true then
          (if acc.isEmpty then pyWordsAux (w ++ rest) []
           else acc.reverse :: pyWordsAux (w ++ rest) [])
         else pyWordsAux (w ++ rest) (c :: acc)) := rfl
    rw [hstep, if_neg (by simp [hc])]
    rw [ih rest (c :: acc) (fun x hx => hw x (by simp [hx]))]
    congr 1
    simp

theorem pyWords_joinSp : ∀ ws : List (List Char),
    (∀ w ∈ ws, w ≠ [] ∧ ∀ c ∈ w, isSpaceRe c = false) →
    pyWords (joinSp ws) = ws := by
  intro ws
  induction ws with
  | nil => intro _; rfl
  | cons w ws ih =>
    intro hws
    obtain ⟨hne, hnw⟩ := hws w (by simp)
    cases ws with
    | nil =>
      show pyWordsAux (joinSp [w]) [] = [w]
      have : joinSp [w] = w ++ [] := by simp [joinSp]
      rw [this, pyWordsAux_word_run w [] [] hnw]
      unfold pyWordsAux
      rw [if_neg (by simpa [List.isEmpty_iff] using hne)]
      simp
    | cons v rest =>
      show pyWordsAux (joinSp (w :: v :: rest)) [] = w :: v :: rest
      have hj : joinSp (w :: v :: rest) = w ++ ' ' :: joinSp (v :: rest) := rfl
      rw [hj, pyWordsAux_word_run w (' ' :: joinSp (v :: rest)) [] hnw]
      unfold pyWordsAux
      rw [if_pos (by decide)]
      rw [if_neg (by simpa [List.isEmpty_iff] using hne)]
      have := ih (fun x hx => hws x (by simp [hx]))
      unfold pyWords at this
      rw [List.append_nil, List.reverse_reverse, this]

theorem joinSp_mem : ∀ (ws : List (List Char)) (x : Char), x ∈ joinSp ws →
    (∃ w ∈ ws, x ∈ w) ∨ x = ' ' := by
  intro ws
  induction ws with
  | nil => intro x hx; exact absurd hx (List.not_mem_nil x)
  | cons w ws ih =>
    intro x hx
    cases ws with
    | nil =>
      exact Or.inl ⟨w, by simp, by simpa [joinSp] using hx⟩
    | cons v rest =>
      have hj : joinSp (w :: v :: rest) = w ++ ' ' :: joinSp (v :: rest) := rfl
      rw [hj] at hx
      rcases List.mem_append.1 hx with hx | hx
      · exact Or.inl ⟨w, by simp, hx⟩
      · rcases List.mem_cons.1 hx with hx | hx
        · exact Or.inr hx
        · rcases ih x hx with ⟨u, hu, hxu⟩ | hx
          · exact Or.inl ⟨u, by simp [hu], hxu⟩
          · exact Or.inr hx

theorem joinSp_append_last : ∀ (L : List (List Char)) (x : List Char), L ≠ [] →
    joinSp (L ++ [x]) = joinSp L ++ ' ' :: x := by
  intro L
  induction L with
  | nil => intro x hx; exact absurd rfl hx
  | cons a L ih =>
    intro x _
    cases L with
    | nil => rfl
    | cons b rest =>
      have h1 : joinSp ((a :: b :: rest) ++ [x]) =
          a ++ ' ' :: joinSp ((b :: rest) ++ [x]) := rfl
      rw [h1, ih x (by simp)]
      simp [joinSp]

theorem joinSp_reverse : ∀ ws : List (List Char),
    (joinSp ws).reverse = joinSp ((ws.map List.reverse).reverse) := by
  intro ws
  induction ws with
  | nil => rfl
  | cons w ws ih =>
    cases ws with
    | nil => simp [joinSp]
    | cons v rest =>
      have h1 : joinSp (w :: v :: rest) = w ++ ' ' :: joinSp (v :: rest) := rfl
      have hne : ((v :: rest).map List.reverse).reverse ≠ [] := by simp
      have h2 : (List.map List.reverse (w :: v :: rest)).reverse =
          ((v :: rest).map List.reverse).reverse ++ [w.reverse] := by simp
      rw [h1, h2, joinSp_append_last _ _ hne, ← ih]
      simp

theorem dropWhile_of_head_false {p : Char → Bool} : ∀ l : List Char,
    (l = [] ∨ ∃ c t, l = c :: t ∧ p c = false) → l.dropWhile p = l := by
  intro l h
  rcases h with h | ⟨c, t, h, hc⟩
  · simp [h]
  · subst h
    rw [List.dropWhile_cons, if_neg (by simp [hc])]

theorem joinSp_head_shape : ∀ ws : List (List Char),
    (∀ w ∈ ws, w ≠ []) →
    joinSp ws = [] ∨ ∃ c t, joinSp ws = c :: t ∧ ∃ w ∈ ws, c ∈ w := by
  intro ws hws
  cases ws with
  | nil => exact Or.inl rfl
  | cons w ws =>
    obtain ⟨c, t, rfl⟩ : ∃ c t, w = c :: t := by
      cases hw : w with
      | nil => exact absurd hw (hws w (by simp))
      | cons c t => exact ⟨c, t, rfl⟩
    cases ws with
    | nil => exact Or.inr ⟨c, t, rfl, c :: t, by simp, by simp⟩
    | cons v rest =>
      exact Or.inr ⟨c, t ++ ' ' :: joinSp (v :: rest), rfl, c :: t, by simp, by simp⟩

theorem pyStrip_joinSp (ws : List (List Char))
    (h : ∀ w ∈ ws, w ≠ [] ∧ ∀ c ∈ w, isSpaceRe c = false) :
    pyStrip (joinSp ws) = joinSp ws := by
  unfold pyStrip
  have h1 : (joinSp ws).dropWhile isSpaceRe = joinSp ws := by
    apply dropWhile_of_head_false
    rcases joinSp_head_shape ws (fun w hw => (h w hw).1) with hj | ⟨c, t, hj, w, hw, hcw⟩
    · exact Or.inl hj
    · exact Or.inr ⟨c, t, hj, (h w hw).2 c hcw⟩
  rw [h1]
  have h2 : (joinSp ws).reverse.dropWhile isSpaceRe = (joinSp ws).reverse := by
    rw [joinSp_reverse]
    apply dropWhile_of_head_false
    have hrev : ∀ w ∈ (ws.map List.reverse).reverse, w ≠ [] ∧
        ∀ c ∈ w, isSpaceRe c = false := by
      intro w hw
      rw [List.mem_reverse, List.mem_map] at hw
      obtain ⟨w0, hw0, hrw⟩ := hw
      subst hrw
      obtain ⟨hne, hnw⟩ := h w0 hw0
      exact ⟨by simpa using hne, fun c hc => hnw c (List.mem_reverse.1 hc)⟩
    rcases joinSp_head_shape _ (fun w hw => (hrev w hw).1) with hj | ⟨c, t, hj, w, hw, hcw⟩
    · exact Or.inl hj
    · exact Or.inr ⟨c, t, hj, (hrev w hw).2 c hcw⟩
  rw [h2, List.reverse_reverse]


theorem map_id_of_forall {f : Char → Char} : ∀ l : List Char,
    (∀ c ∈ l, f c = c) → l.map f = l := by
  intro l
  induction l with
  | nil => intro _; rfl
  | cons c t ih =>
    intro h
    rw [List.map_cons, h c (by simp), ih (fun x hx => h x (by simp [hx]))]

theorem norm_space_fixed (ws : List (List Char))
    (hws : ∀ w ∈ ws, w ≠ [] ∧ (∀ c ∈ w, isSpaceRe c = false) ∧
      ∀ c ∈ w, (!(c ∈ bidiChars)) = true) :
    norm_space ⟨joinSp ws⟩ = ⟨joinSp ws⟩ := by
  unfold norm_space
  dsimp only
  have hmap : (joinSp ws).map (fun c => if c = '\u00a0' then ' ' else c) = joinSp ws := by
    apply map_id_of_forall
    intro c hc
    rcases joinSp_mem ws c hc with ⟨w, hw, hcw⟩ | hc'
    · have hnw := (hws w hw).2.1 c hcw
      have hne : ¬ c = '\u00a0' := by
        intro he
        rw [he] at hnw
        exact absurd hnw (by decide)
      rw [if_neg hne]
    · subst hc'
      rw [if_neg (by decide)]
  rw [hmap, pyStrip_joinSp ws (fun w hw => ⟨(hws w hw).1, (hws w hw).2.1⟩)]
  have hfilter : (joinSp ws).filter (fun c => !(c ∈ bidiChars)) = joinSp ws := by
    apply List.filter_eq_self.2
    intro a ha
    rcases joinSp_mem ws a ha with ⟨w, hw, haw⟩ | ha'
    · exact (hws w hw).2.2 a haw
    · subst ha'
      decide
  rw [hfilter, pyWords_joinSp ws (fun w hw => ⟨(hws w hw).1, (hws w hw).2.1⟩)]

/-- C10: `_norm_space` is idempotent: re-normalizing already-normalized text
never changes it. -/
theorem norm_space_idempotent (s : String) :
    norm_space (norm_space s) = norm_space s := by
  have h0 : norm_space s =
      ⟨joinSp (pyWords ((pyStrip (s.data.map
        (fun c => if c = '\u00a0' then ' ' else c))).filter
          (fun c => !(c ∈ bidiChars))))⟩ := rfl
  rw [h0]
  apply norm_space_fixed
  intro w hw
  obtain ⟨h1, h2, h3⟩ := pyWords_spec _ w hw
  refine ⟨h1, h2, fun c hc => ?_⟩
  exact (List.mem_filter.1 (h3 c hc)).2

theorem download_fetch_singleton {Page : Type} (w : Web Page) (u : String) :
    (download_image_as_data_url w u).2 = [u] := by
  unfold download_image_as_data_url
  cases w.httpGet u with
  | none => rfl
  | some pc => rfl

theorem cacheFind_insert (c : PreviewCache) (u : String) (p : Preview)
    (h : cacheFind c u = none) :
    cacheFind (cacheInsert c u p) u = some p := by
  unfold cacheFind at h ⊢
  unfold cacheInsert
  rw [List.find?_append]
  simp only [Option.map_eq_none'] at h
  rw [h]
  simp [List.find?]

theorem build_preview_hit {Page : Type} (w : Web Page) (cache : PreviewCache)
    (url : String) (p : Preview) (h : cacheFind cache url = some p) :
    build_preview w cache url = (some p, cache, []) := by
  unfold build_preview
  rw [h]

theorem build_preview_yt {Page : Type} (w : Web Page) (cache : PreviewCache)
    (url vid : String) (hmiss : cacheFind cache url = none)
    (hyt : w.isYT url = some vid) :
    build_preview w cache url =
      (some (⟨url, "YouTube", "",
          (download_image_as_data_url w
            ("https://img.youtube.com/vi/" ++ vid ++ "/hqdefault.jpg")).1⟩ : Preview),
       cacheInsert cache url
         ⟨url, "YouTube", "",
          (download_image_as_data_url w
            ("https://img.youtube.com/vi/" ++ vid ++ "/hqdefault.jpg")).1⟩,
       (download_image_as_data_url w
         ("https://img.youtube.com/vi/" ++ vid ++ "/hqdefault.jpg")).2) := by
  unfold build_preview
  rw [hmiss, hyt]

theorem build_preview_fetch_fail {Page : Type} (w : Web Page)
    (cache : PreviewCache) (url : String) (hmiss : cacheFind cache url = none)
    (hyt : w.isYT url = none) (hg : w.httpGet url = none) :
    build_preview w cache url = (none, cache, [url]) := by
  unfold build_preview
  rw [hmiss, hyt, hg]

theorem build_preview_fetch_ok {Page : Type} (w : Web Page)
    (cache : PreviewCache) (url : String) (pc : Page × String)
    (hmiss : cacheFind cache url = none) (hyt : w.isYT url = none)
    (hg : w.httpGet url = some pc) :
    build_preview w cache url =
      (some (⟨url,
          ⟨pyStrip (pyOr (w.meta pc.1 "og:title")
            (pyOr (w.meta pc.1 "title") url)).data⟩,
          ⟨pyStrip (pyOr (w.meta pc.1 "og:description")
            (pyOr (w.meta pc.1 "description") "")).data⟩,
          (if pyOr (w.meta pc.1 "og:image")
              (pyOr (w.meta pc.1 "twitter:image") "") ≠ "" then
            download_image_as_data_url w (w.urljoin url
              (pyOr (w.meta pc.1 "og:image")
                (pyOr (w.meta pc.1 "twitter:image") "")))
           else (none, [])).1⟩ : Preview),
       cacheInsert cache url
         ⟨url,
          ⟨pyStrip (pyOr (w.meta pc.1 "og:title")
            (pyOr (w.meta pc.1 "title") url)).data⟩,
          ⟨pyStrip (pyOr (w.meta pc.1 "og:description")
            (pyOr (w.meta pc.1 "description") "")).data⟩,
          (if pyOr (w.meta pc.1 "og:image")
              (pyOr (w.meta pc.1 "twitter:image") "") ≠ "" then
            download_image_as_data_url w (w.urljoin url
              (pyOr (w.meta pc.1 "og:image")
                (pyOr (w.meta pc.1 "twitter:image") "")))
           else (none, [])).1⟩,
       url :: (if pyOr (w.meta pc.1 "og:image")
            (pyOr (w.meta pc.1 "twitter:image") "") ≠ "" then
          download_image_as_data_url w (w.urljoin url
            (pyOr (w.meta pc.1 "og:image")
              (pyOr (w.meta pc.1 "twitter:image") "")))
         else (none, [])).2) := by
  unfold build_preview
  rw [hmiss, hyt, hg]

theorem build_preview_inserts {Page : Type} (w : Web Page) (cache : PreviewCache)
    (url : String) (p : Preview) (hmiss : cacheFind cache url = none)
    (hsome : (build_preview w cache url).1 = some p) :
    (build_preview w cache url).2.1 = cacheInsert cache url p := by
  cases hyt : w.isYT url with
  | some vid =>
    rw [build_preview_yt w cache url vid hmiss hyt] at hsome ⊢
    simp only [Option.some.injEq] at hsome
    rw [hsome]
  | none =>
    cases hg : w.httpGet url with
    | none =>
      rw [build_preview_fetch_fail w cache url hmiss hyt hg] at hsome
      exact absurd hsome (by simp)
    | some pc =>
      rw [build_preview_fetch_ok w cache url pc hmiss hyt hg] at hsome ⊢
      simp only [Option.some.injEq] at hsome
      rw [hsome]

theorem build_preview_none_keeps_cache {Page : Type} (w : Web Page)
    (cache : PreviewCache) (url : String) (hmiss : cacheFind cache url = none)
    (hnone : (build_preview w cache url).1 = none) :
    (build_preview w cache url).2.1 = cache := by
  cases hyt : w.isYT url with
  | some vid =>
    rw [build_preview_yt w cache url vid hmiss hyt] at hnone
    exact absurd hnone (by simp)
  | none =>
    cases hg : w.httpGet url with
    | none => rw [build_preview_fetch_fail w cache url hmiss hyt hg]
    | some pc =>
      rw [build_preview_fetch_ok w cache url pc hmiss hyt hg] at hnone
      exact absurd hnone (by simp)

/-- C7 (amended): `build_preview` is memoized for hits and successful
resolutions — a hit does no fetch and returns the stored record; a miss
makes one page (or thumbnail) fetch plus at most one image fetch; a
successful resolution is stored, so the next call on that URL does no
fetch — but a failed generic resolution is not stored, leaving the cache
unchanged (and hence open to a retry). -/
theorem build_preview_memoization {Page : Type} (w : Web Page)
    (cache : PreviewCache) (url : String) :
    (∀ p, cacheFind cache url = some p →
      build_preview w cache url = (some p, cache, [])) ∧
    (cacheFind cache url = none →
      1 ≤ (build_preview w cache url).2.2.length ∧
      (build_preview w cache url).2.2.length ≤ 2) ∧
    (∀ p, cacheFind cache url = none → (build_preview w cache url).1 = some p →
      build_preview w (build_preview w cache url).2.1 url =
        (some p, (build_preview w cache url).2.1, [])) ∧
    (cacheFind cache url = none → (build_preview w cache url).1 = none →
      (build_preview w cache url).2.1 = cache) := by
  refine ⟨fun p hp => build_preview_hit w cache url p hp, ?_, ?_, ?_⟩
  · intro hmiss
    cases hyt : w.isYT url with
    | some vid =>
      rw [build_preview_yt w cache url vid hmiss hyt, download_fetch_singleton]
      simp
    | none =>
      cases hg : w.httpGet url with
      | none =>
        rw [build_preview_fetch_fail w cache url hmiss hyt hg]
        simp
      | some pc =>
        rw [build_preview_fetch_ok w cache url pc hmiss hyt hg]
        by_cases himg : pyOr (w.meta pc.1 "og:image")
            (pyOr (w.meta pc.1 "twitter:image") "") ≠ ""
        · rw [if_pos himg, download_fetch_singleton]
          simp
        · rw [if_neg himg]
          simp
  · intro p hmiss hsome
    have hins := build_preview_inserts w cache url p hmiss hsome
    have hfind : cacheFind (build_preview w cache url).2.1 url = some p := by
      rw [hins]
      exact cacheFind_insert cache url p hmiss
    exact build_preview_hit w _ url p hfind
  · exact build_preview_none_keeps_cache w cache url

/-- C7 (counterexample): with an environment in which every fetch fails, a
first call on an uncached URL attempts one fetch and caches nothing, and a
second call on the very same URL attempts the fetch again — so a URL that
failed to resolve is retried, and two messages with the same failing URL
cause two outbound fetch attempts. -/
theorem failed_preview_fetch_retried :
    build_preview failWeb [] "http://x.test" =
      (none, [], ["http://x.test"]) ∧
    (build_preview failWeb
        (build_preview failWeb [] "http://x.test").2.1 "http://x.test").2.2 =
      ["http://x.test"] := ⟨rfl, rfl⟩

theorem build_preview_memoization_witness :
    build_preview okWeb
        (build_preview okWeb [] "http://x.test").2.1 "http://x.test" =
      (some ⟨"http://x.test", "http://x.test", "", none⟩,
        (build_preview okWeb [] "http://x.test").2.1, []) := by
  exact (build_preview_memoization okWeb [] "http://x.test").2.2.1
    ⟨"http://x.test", "http://x.test", "", none⟩ rfl (by decide)
